import Mathlib

/-!
Shallow embedding of the 1D spring-element FEA core (`fea_core.py`).

Real-valued quantities of the program (stiffnesses, forces, displacements)
are modelled as exact rationals `ℚ`; `np.linalg.solve` is modelled as the
exact linear solve that succeeds precisely on a nonsingular system, which is
the idealised semantics the code relies on.  Matrices indexed by global DOFs
are total functions `ℕ → ℕ → ℚ` (numpy's `n × n` array being their
restriction to indices below `n`), and the reduced free×free block is a
`Matrix (Fin m) (Fin m) ℚ`.
-/

namespace FEA

/-- Error taxonomy of the core: the two `ValueError`s raised by
`fea_core.py`, distinguished by their message as in the source. -/
inductive FEAError where
  | invalidElement (msg : String)
  | structuralSingularity (msg : String)
  deriving DecidableEq

/-- Message of the self-loop `ValueError` in `SpringElement.__init__`. -/
def identicalNodesMsg : String := "Element with identical nodes i=j is not allowed."

/-- Message of the non-positive-stiffness `ValueError` in `SpringElement.__init__`. -/
def stiffnessMsg : String := "Stiffness k must be > 0."

/-- Message of the singular-matrix `ValueError` in `SpringFEASolver.solve`. -/
def singularMsg : String :=
  "Stiffness matrix is singular aka A HOUSE ON WHEELS. Check connectivity and boundary conditions."

/-- `Node` of `fea_core.py`: a single-DOF node.  Fields mirror the Python
attributes set in `Node.__init__`; `dof` is derived as `id - 1`. -/
structure Node where
  id : ℕ
  force : ℚ
  fixed : Bool
  prescribed : Bool
  u_prescribed : ℚ
  u : ℚ
  deriving DecidableEq

/-- `Node.__init__(node_id)`: all numeric fields 0, flags false. -/
def Node.init (node_id : ℕ) : Node := ⟨node_id, 0, false, false, 0, 0⟩

/-- `self.dof = self.id - 1` (0-based DOF index of a 1-based id). -/
def Node.dof (nd : Node) : ℕ := nd.id - 1

/-- `SpringElement` of `fea_core.py` with its four attributes. -/
structure SpringElement where
  i : Node
  j : Node
  k : ℚ
  axial : ℚ
  deriving DecidableEq

/-- `SpringElement.__init__(ni, nj, k)`: the validated constructor.  It
raises on a self-loop (equal node ids) and on `k <= 0`; on success the
element is created with `axial = 0`. -/
def SpringElement.build (ni nj : Node) (k : ℚ) : Except FEAError SpringElement :=
  if ni.id = nj.id then .error (.invalidElement identicalNodesMsg)
  else if k ≤ 0 then .error (.invalidElement stiffnessMsg)
  else .ok ⟨ni, nj, k, 0⟩

/-- `SpringElement.ke()`: the 2×2 element stiffness block `[[k,-k],[-k,k]]`. -/
def SpringElement.ke (e : SpringElement) : Matrix (Fin 2) (Fin 2) ℚ :=
  Matrix.of ![![e.k, -e.k], ![-e.k, e.k]]

/-- `SpringElement.connectivity()`: the global DOF indices `(i.dof, j.dof)`. -/
def SpringElement.connectivity (e : SpringElement) : ℕ × ℕ := (e.i.dof, e.j.dof)

/-- One `K[a, b] += v` update of a global matrix. -/
def addEntry (K : ℕ → ℕ → ℚ) (a b : ℕ) (v : ℚ) : ℕ → ℕ → ℚ :=
  fun x y => if x = a ∧ y = b then K x y + v else K x y

/-- `SpringElement.add_to_global(K)`: scatter-add the four entries of `ke`
into the global matrix at rows/columns `(i.dof, j.dof)`, in source order. -/
def SpringElement.add_to_global (e : SpringElement) (K : ℕ → ℕ → ℚ) : ℕ → ℕ → ℚ :=
  addEntry (addEntry (addEntry (addEntry K
    e.connectivity.1 e.connectivity.1 (e.ke 0 0))
    e.connectivity.1 e.connectivity.2 (e.ke 0 1))
    e.connectivity.2 e.connectivity.1 (e.ke 1 0))
    e.connectivity.2 e.connectivity.2 (e.ke 1 1)

/-- `SpringElement.elongation(u)`: `u[j.dof] - u[i.dof]`. -/
def SpringElement.elongation (e : SpringElement) (u : ℕ → ℚ) : ℚ :=
  u e.connectivity.2 - u e.connectivity.1

/-- `SpringElement.axial_force(u)`: `k * elongation(u)`. -/
def SpringElement.axial_force (e : SpringElement) (u : ℕ → ℚ) : ℚ :=
  e.k * e.elongation u

/-- `SpringElement.nodal_actions(u)`: `(k*(ui-uj), k*(uj-ui))`. -/
def SpringElement.nodal_actions (e : SpringElement) (u : ℕ → ℚ) : ℚ × ℚ :=
  (e.k * (u e.connectivity.1 - u e.connectivity.2),
   e.k * (u e.connectivity.2 - u e.connectivity.1))

/-- Executable determinant of a rational matrix by Laplace expansion along
row 0; proved equal to `Matrix.det` below.  This models the exact value
`np.linalg` decides singularity by. -/
def detQ : (m : ℕ) → Matrix (Fin m) (Fin m) ℚ → ℚ
  | 0, _ => 1
  | m + 1, A =>
      ∑ j : Fin (m + 1), (-1) ^ (j : ℕ) * A 0 j * detQ m (A.submatrix Fin.succ j.succAbove)

/-- Executable adjugate of a rational matrix, entrywise via `detQ`. -/
def adjQ (m : ℕ) (A : Matrix (Fin m) (Fin m) ℚ) : Matrix (Fin m) (Fin m) ℚ :=
  Matrix.of fun p q => detQ m (A.updateRow q (Pi.single p 1))

/-- Exact inverse `det⁻¹ • adjugate`, executable. -/
def matInv {m : ℕ} (A : Matrix (Fin m) (Fin m) ℚ) : Matrix (Fin m) (Fin m) ℚ :=
  (detQ m A)⁻¹ • adjQ m A

/-- `SpringFEASolver` state: the caller-supplied collections plus the four
derived arrays created in `__init__` (zero matrix / vectors) and overwritten
by `assemble`. -/
structure SpringFEASolver where
  nodes : List Node
  elements : List SpringElement
  n : ℕ
  K_full : ℕ → ℕ → ℚ
  F_full : ℕ → ℚ
  fixed : ℕ → Bool
  u_known : ℕ → ℚ

/-- `SpringFEASolver.__init__(nodes, elements)`. -/
def mkSolver (nodes : List Node) (elements : List SpringElement) : SpringFEASolver :=
  ⟨nodes, elements, nodes.length, fun _ _ => 0, fun _ => 0, fun _ => false, fun _ => 0⟩

/-- `SpringFEASolver.assemble()`: fold every element's scatter-add over a
fresh zero matrix, and capture `F_full`, `fixed`, `u_known` from the node
list in index order. -/
def SpringFEASolver.assemble (s : SpringFEASolver) : SpringFEASolver :=
  { s with
    K_full := s.elements.foldl (fun K e => e.add_to_global K) (fun _ _ => 0)
    F_full := fun a => if h : a < s.nodes.length then (s.nodes.get ⟨a, h⟩).force else 0
    fixed := fun a => if h : a < s.nodes.length then (s.nodes.get ⟨a, h⟩).fixed else false
    u_known := fun a =>
      if h : a < s.nodes.length then
        (if (s.nodes.get ⟨a, h⟩).prescribed then (s.nodes.get ⟨a, h⟩).u_prescribed else 0)
      else 0 }

/-- The numeric fields `solve` reads after the assembly check: everything
except the node/element collections. -/
structure Core where
  n : ℕ
  K : ℕ → ℕ → ℚ
  F : ℕ → ℚ
  fixed : ℕ → Bool
  uk : ℕ → ℚ

def core (s : SpringFEASolver) : Core := ⟨s.n, s.K_full, s.F_full, s.fixed, s.u_known⟩

/-- `self.K_full.sum()`: the sum of all `n × n` entries of the stored
global matrix. -/
def matSum (s : SpringFEASolver) : ℚ :=
  ∑ a ∈ Finset.range s.n, ∑ b ∈ Finset.range s.n, s.K_full a b

/-- The re-assembly precheck at the top of `solve`:
`if self.K_full.sum() == 0.0: self.assemble()`. -/
def assembleIfNeeded (s : SpringFEASolver) : SpringFEASolver :=
  if matSum s = 0 then s.assemble else s

/-- `free_idx = np.where(~self.fixed)[0]`: free DOF indices in increasing
order. -/
def freeIdx (c : Core) : List ℕ := (List.range c.n).filter (fun a => !c.fixed a)

/-- `fixed_idx = np.where(self.fixed)[0]`: fixed DOF indices in increasing
order. -/
def fixedIdx (c : Core) : List ℕ := (List.range c.n).filter (fun a => c.fixed a)

/-- `Kff = K_full[np.ix_(free_idx, free_idx)]`. -/
def Kff (c : Core) : Matrix (Fin (freeIdx c).length) (Fin (freeIdx c).length) ℚ :=
  Matrix.of fun p q => c.K ((freeIdx c).get p) ((freeIdx c).get q)

/-- `Ff = F_full[free_idx]`. -/
def Ff (c : Core) : Fin (freeIdx c).length → ℚ := fun p => c.F ((freeIdx c).get p)

/-- `rhs = Ff - Kfc @ uc` when any DOF is fixed, else `rhs = Ff`. -/
def rhs (c : Core) : Fin (freeIdx c).length → ℚ :=
  if 0 < (fixedIdx c).length then
    fun p => Ff c p - ((fixedIdx c).map (fun b => c.K ((freeIdx c).get p) b * c.uk b)).sum
  else Ff c

/-- `uf = np.linalg.solve(Kff, rhs)` (value when nonsingular). -/
def uf (c : Core) : Fin (freeIdx c).length → ℚ := (matInv (Kff c)).mulVec (rhs c)

/-- `uf` as a total function of the position in `free_idx`. -/
def ufFun (c : Core) : ℕ → ℚ :=
  fun t => if h : t < (freeIdx c).length then uf c ⟨t, h⟩ else 0

/-- The full displacement vector: `u = zeros(n); u[free_idx] = uf;
u[fixed_idx] = uc`. -/
def uVec (c : Core) : ℕ → ℚ :=
  fun a =>
    if a < c.n then (if c.fixed a then c.uk a else ufFun c ((freeIdx c).indexOf a)) else 0

/-- The full reaction vector `R = K_full @ u - F_full`. -/
def RVec (c : Core) : ℕ → ℚ :=
  fun a =>
    if a < c.n then (∑ b ∈ Finset.range c.n, c.K a b * uVec c b) - c.F a else 0

/-- The write-back loop `for i, nd in enumerate(self.nodes): nd.u = u[i]`,
starting at position `t`. -/
def writeNodes (u : ℕ → ℚ) : ℕ → List Node → List Node
  | _, [] => []
  | t, nd :: rest => { nd with u := u t } :: writeNodes u (t + 1) rest

/-- Both write-back loops of `solve`: node displacements by list position,
element axial forces via `axial_force(u)`. -/
def writeBack (s : SpringFEASolver) : SpringFEASolver :=
  { s with
    nodes := writeNodes (uVec (core s)) 0 s.nodes
    elements := s.elements.map fun e => { e with axial := e.axial_force (uVec (core s)) } }

/-- The value returned by `solve` (`u, R, free_idx, fixed_idx`) together
with the mutated solver/node/element state. -/
structure SolveOut where
  state : SpringFEASolver
  u : ℕ → ℚ
  R : ℕ → ℚ
  free_idx : List ℕ
  fixed_idx : List ℕ

/-- `SpringFEASolver.solve()`: assemble if the stored matrix sums to zero,
partition, return directly in the all-fixed branch, otherwise solve the
reduced system, raising on a singular `Kff`. -/
def SpringFEASolver.solve (s : SpringFEASolver) : Except FEAError SolveOut :=
  let t := assembleIfNeeded s
  let c := core t
  if (freeIdx c).length = 0 then
    .ok ⟨writeBack t, uVec c, RVec c, freeIdx c, fixedIdx c⟩
  else if detQ (freeIdx c).length (Kff c) = 0 then
    .error (.structuralSingularity singularMsg)
  else
    .ok ⟨writeBack t, uVec c, RVec c, freeIdx c, fixedIdx c⟩

/-- `SpringFEASolver.element_forces()`. -/
def SpringFEASolver.element_forces (s : SpringFEASolver) : List ℚ :=
  s.elements.map (fun e => e.axial)

/-- Extract the payload of a successful solve (default value on error);
used to state closed facts about concrete solves. -/
def getOut (r : Except FEAError SolveOut) : SolveOut :=
  match r with
  | .ok o => o
  | .error _ => ⟨mkSolver [] [], fun _ => 0, fun _ => 0, [], []⟩

/-- The net amount `add_to_global` adds at entry `(x, y)`: the four
scatter-added `ke` entries, written as indicator terms. -/
def contrib (e : SpringElement) (x y : ℕ) : ℚ :=
  (if x = e.i.dof ∧ y = e.i.dof then e.k else 0) +
  (if x = e.i.dof ∧ y = e.j.dof then -e.k else 0) +
  (if x = e.j.dof ∧ y = e.i.dof then -e.k else 0) +
  (if x = e.j.dof ∧ y = e.j.dof then e.k else 0)

/-- `contrib` as a function of the element's input fields only. -/
def contribT (t : Node × Node × ℚ) (x y : ℕ) : ℚ :=
  (if x = t.1.dof ∧ y = t.1.dof then t.2.2 else 0) +
  (if x = t.1.dof ∧ y = t.2.1.dof then -t.2.2 else 0) +
  (if x = t.2.1.dof ∧ y = t.1.dof then -t.2.2 else 0) +
  (if x = t.2.1.dof ∧ y = t.2.1.dof then t.2.2 else 0)

/-- The input fields of a node: everything except the solved displacement. -/
def nodeInputs (nd : Node) : ℕ × ℚ × Bool × Bool × ℚ :=
  (nd.id, nd.force, nd.fixed, nd.prescribed, nd.u_prescribed)

/-- The input fields of an element: node references and stiffness. -/
def elemInputs (e : SpringElement) : Node × Node × ℚ := (e.i, e.j, e.k)

/-- Example: node 1, fixed at zero displacement. -/
def exN1 : Node := ⟨1, 0, true, false, 0, 0⟩

/-- Example: node 2, free, external load 5. -/
def exN2 : Node := ⟨2, 5, false, false, 0, 0⟩

/-- Example: node 3, free, no load, touched by no element. -/
def exN3 : Node := ⟨3, 0, false, false, 0, 0⟩

/-- Example: spring of stiffness 10 between nodes 1 and 2. -/
def exE12 : SpringElement := ⟨exN1, exN2, 10, 0⟩

/-- Example: a second spring, stiffness 3, between nodes 1 and 2. -/
def exE12b : SpringElement := ⟨exN1, exN2, 3, 0⟩

/-- Example model: single spring `k = 10`, node 1 fixed, node 2 loaded
with 5 (the spec's worked example: `u2 = 1/2`, reaction `-5`, axial 5). -/
def ex1 : SpringFEASolver := mkSolver [exN1, exN2] [exE12]

/-- Example model: the spec's singular case — an element between nodes 1
and 2 only, node 3 free and uncoupled. -/
def ex2 : SpringFEASolver := mkSolver [exN1, exN2, exN3] [exE12]

/-- Example model with two springs between nodes 1 and 2. -/
def ex6a : SpringFEASolver := mkSolver [exN1, exN2] [exE12, exE12b]

/-- `ex6a` with its element list reversed. -/
def ex6b : SpringFEASolver := mkSolver [exN1, exN2] [exE12b, exE12]

/-- A solver state whose stored matrix has nonzero entries that sum to
zero: `K = diag(2, -2)` with an empty element list. -/
def csK : ℕ → ℕ → ℚ :=
  fun a b => if a = 0 ∧ b = 0 then 2 else if a = 1 ∧ b = 1 then -2 else 0

/-- The counterexample state for the re-assembly trigger: stored `K` is
`diag(2, -2)` (nonzero entries, entry sum zero), no elements. -/
def cs : SpringFEASolver := { mkSolver [exN1, exN2] [] with K_full := csK }

/-! ## Theorems -/

theorem detQ_eq_det : ∀ (m : ℕ) (A : Matrix (Fin m) (Fin m) ℚ), detQ m A = A.det := by
  intro m
  induction m with
  | zero => intro A; rw [Matrix.det_fin_zero]; rfl
  | succ m ih =>
      intro A
      rw [Matrix.det_succ_row_zero]
      simp only [detQ]
      refine Finset.sum_congr rfl fun j _ => ?_
      rw [ih]

theorem adjQ_eq_adjugate (m : ℕ) (A : Matrix (Fin m) (Fin m) ℚ) : adjQ m A = A.adjugate := by
  ext p q
  rw [Matrix.adjugate_apply, adjQ, Matrix.of_apply, detQ_eq_det]

theorem matInv_eq (m : ℕ) (A : Matrix (Fin m) (Fin m) ℚ) :
    matInv A = A.det⁻¹ • A.adjugate := by
  rw [matInv, detQ_eq_det, adjQ_eq_adjugate]

/-- `matInv` really inverts: applying a nonsingular `A` to
`matInv A ⬝ b` recovers `b`. -/
theorem mulVec_matInv_mulVec (m : ℕ) (A : Matrix (Fin m) (Fin m) ℚ)
    (hdet : A.det ≠ 0) (b : Fin m → ℚ) :
    A.mulVec ((matInv A).mulVec b) = b := by
  rw [matInv_eq, Matrix.mulVec_mulVec, Matrix.mul_smul, Matrix.mul_adjugate, smul_smul,
    inv_mul_cancel₀ hdet, one_smul, Matrix.one_mulVec]

/-- The four sequential `+=` updates of `add_to_global` amount to adding
`contrib` pointwise (also when the two DOFs coincide, where the four
updates hit one entry and cancel). -/
theorem add_to_global_apply (e : SpringElement) (K : ℕ → ℕ → ℚ) (x y : ℕ) :
    e.add_to_global K x y = K x y + contrib e x y := by
  simp only [SpringElement.add_to_global, SpringElement.connectivity, SpringElement.ke,
    addEntry, contrib, Matrix.of_apply, Matrix.cons_val_zero, Matrix.cons_val_one,
    Matrix.head_cons]
  split_ifs <;> ring

/-- `contrib` is symmetric in its two DOF arguments. -/
theorem contrib_symm (e : SpringElement) (x y : ℕ) : contrib e x y = contrib e y x := by
  unfold contrib
  by_cases hij : e.i.dof = e.j.dof <;>
    by_cases h1 : x = e.i.dof <;> by_cases h2 : y = e.i.dof <;>
    by_cases h3 : x = e.j.dof <;> by_cases h4 : y = e.j.dof <;>
    simp [h1, h2, h3, h4, hij, eq_comm]

/-- Folding scatter-adds over a list of elements adds the sum of their
contributions. -/
theorem foldl_add_to_global_apply (l : List SpringElement) (K : ℕ → ℕ → ℚ) (x y : ℕ) :
    (l.foldl (fun K e => e.add_to_global K) K) x y
      = K x y + (l.map (fun e => contrib e x y)).sum := by
  induction l generalizing K with
  | nil => simp
  | cons e l ih =>
      simp only [List.foldl_cons, List.map_cons, List.sum_cons]
      rw [ih, add_to_global_apply]
      ring

/-- Entry of the assembled global matrix: the sum of element
contributions at that entry. -/
theorem assemble_K_apply (s : SpringFEASolver) (x y : ℕ) :
    (s.assemble).K_full x y = (s.elements.map (fun e => contrib e x y)).sum := by
  show (s.elements.foldl (fun K e => e.add_to_global K) (fun _ _ => 0)) x y = _
  rw [foldl_add_to_global_apply]
  ring

/-- C5: the global stiffness matrix produced by `assemble` is symmetric:
`K[a][b] = K[b][a]` for all DOF pairs `(a, b)`. -/
theorem assemble_K_symm (s : SpringFEASolver) (a b : ℕ) :
    (s.assemble).K_full a b = (s.assemble).K_full b a := by
  rw [assemble_K_apply, assemble_K_apply]
  exact congrArg List.sum (List.map_congr_left fun e _ => contrib_symm e a b)

/-- C6: the assembled global stiffness matrix is invariant under
permutation of the element list. -/
theorem assemble_K_perm (s t : SpringFEASolver) (hp : s.elements.Perm t.elements) :
    (s.assemble).K_full = (t.assemble).K_full := by
  funext x y
  rw [assemble_K_apply, assemble_K_apply]
  exact (hp.map (fun e => contrib e x y)).sum_eq

/-- Witness for C6: the two-spring model and its reversed element list
assemble to the same matrix. -/
theorem assemble_K_perm_witness :
    ex6a.elements.Perm ex6b.elements
      ∧ (ex6a.assemble).K_full = (ex6b.assemble).K_full := by
  have hp : ex6a.elements.Perm ex6b.elements := List.Perm.swap exE12b exE12 []
  exact ⟨hp, assemble_K_perm ex6a ex6b hp⟩

theorem mem_freeIdx {c : Core} {a : ℕ} : a ∈ freeIdx c ↔ a < c.n ∧ c.fixed a = false := by
  simp [freeIdx, List.mem_filter, List.mem_range]

theorem mem_fixedIdx {c : Core} {a : ℕ} : a ∈ fixedIdx c ↔ a < c.n ∧ c.fixed a = true := by
  simp [fixedIdx, List.mem_filter, List.mem_range]

theorem freeIdx_nodup (c : Core) : (freeIdx c).Nodup :=
  List.Nodup.filter _ (List.nodup_range _)

theorem nodup_indexOf_get {l : List ℕ} (hl : l.Nodup) (p : Fin l.length) :
    l.indexOf (l.get p) = p.val := by
  have hmem : l.get p ∈ l := l.get_mem p.val p.isLt
  have hlt : l.indexOf (l.get p) < l.length := List.indexOf_lt_length.2 hmem
  have hg : l.get ⟨l.indexOf (l.get p), hlt⟩ = l.get p := List.indexOf_get hlt
  have hinj := List.nodup_iff_injective_get.1 hl
  exact congrArg Fin.val (hinj hg)

theorem uVec_fixed {c : Core} {a : ℕ} (ha : a < c.n) (hf : c.fixed a = true) :
    uVec c a = c.uk a := by
  simp [uVec, ha, hf]

theorem uVec_free (c : Core) (p : Fin (freeIdx c).length) :
    uVec c ((freeIdx c).get p) = uf c p := by
  have hmem : (freeIdx c).get p ∈ freeIdx c := (freeIdx c).get_mem p.val p.isLt
  obtain ⟨hlt, hfix⟩ := mem_freeIdx.1 hmem
  have hidx := nodup_indexOf_get (freeIdx_nodup c) p
  simp only [List.get_eq_getElem] at hidx hlt hfix ⊢
  simp [uVec, hlt, hfix, ufFun, hidx, p.isLt]

/-- Inversion of `solve`: either it succeeds, returning exactly the
written-back state with `uVec`/`RVec` and the two index lists (and then
either there is no free DOF or the reduced block is nonsingular), or the
reduced block exists and is singular and it fails with the
structural-singularity error. -/
theorem solve_cases (s : SpringFEASolver) :
    (s.solve = .ok ⟨writeBack (assembleIfNeeded s), uVec (core (assembleIfNeeded s)),
        RVec (core (assembleIfNeeded s)), freeIdx (core (assembleIfNeeded s)),
        fixedIdx (core (assembleIfNeeded s))⟩
      ∧ ((freeIdx (core (assembleIfNeeded s))).length = 0
          ∨ (Kff (core (assembleIfNeeded s))).det ≠ 0))
    ∨ (s.solve = .error (.structuralSingularity singularMsg)
        ∧ (freeIdx (core (assembleIfNeeded s))).length ≠ 0
        ∧ (Kff (core (assembleIfNeeded s))).det = 0) := by
  by_cases h0 : (freeIdx (core (assembleIfNeeded s))).length = 0
  · exact .inl ⟨by simp [SpringFEASolver.solve, h0], .inl h0⟩
  · by_cases hd : detQ (freeIdx (core (assembleIfNeeded s))).length
        (Kff (core (assembleIfNeeded s))) = 0
    · refine .inr ⟨by simp [SpringFEASolver.solve, h0, hd], h0, ?_⟩
      rw [← detQ_eq_det]; exact hd
    · refine .inl ⟨by simp [SpringFEASolver.solve, h0, hd], .inr ?_⟩
      rw [← detQ_eq_det]; exact hd

theorem rhs_eq (c : Core) (p : Fin (freeIdx c).length) :
    rhs c p = Ff c p - ((fixedIdx c).map (fun b => c.K ((freeIdx c).get p) b * c.uk b)).sum := by
  unfold rhs
  by_cases h : 0 < (fixedIdx c).length
  · simp [h]
  · have hnil : fixedIdx c = [] := List.eq_nil_of_length_eq_zero (by omega)
    simp [h, hnil]

/-- When the reduced block is nonsingular, the vector `uf` returned by the
modelled `np.linalg.solve` satisfies the reduced system
`Kff · uf = Ff − Kfc · uc` row by row. -/
theorem free_system_solved (c : Core) (hdet : (Kff c).det ≠ 0) (p : Fin (freeIdx c).length) :
    (∑ q, c.K ((freeIdx c).get p) ((freeIdx c).get q) * uf c q)
      = c.F ((freeIdx c).get p)
        - ((fixedIdx c).map (fun b => c.K ((freeIdx c).get p) b * c.uk b)).sum := by
  have h := mulVec_matInv_mulVec _ (Kff c) hdet (rhs c)
  have hp : (Kff c).mulVec (uf c) p = rhs c p := congrFun h p
  rw [rhs_eq] at hp
  calc (∑ q, c.K ((freeIdx c).get p) ((freeIdx c).get q) * uf c q)
      = (Kff c).mulVec (uf c) p := by
        simp [Matrix.mulVec, Matrix.dotProduct, Kff]
    _ = Ff c p - ((fixedIdx c).map (fun b => c.K ((freeIdx c).get p) b * c.uk b)).sum := hp
    _ = c.F ((freeIdx c).get p)
        - ((fixedIdx c).map (fun b => c.K ((freeIdx c).get p) b * c.uk b)).sum := rfl

/-- C1: on any successful solve with at least one free DOF, the returned
displacement vector solves the reduced system `K_ff · u_f = F_f − K_fc · u_c`
at the free DOF indices, carries the known values at the fixed DOF indices,
and the returned reaction vector is `K·u − F` over all DOFs. -/
theorem C1_partitioned_solve (s : SpringFEASolver) (out : SolveOut)
    (h : s.solve = .ok out)
    (hfree : freeIdx (core (assembleIfNeeded s)) ≠ []) :
    (∀ p : Fin (freeIdx (core (assembleIfNeeded s))).length,
        (∑ q, (core (assembleIfNeeded s)).K
            ((freeIdx (core (assembleIfNeeded s))).get p)
            ((freeIdx (core (assembleIfNeeded s))).get q)
            * out.u ((freeIdx (core (assembleIfNeeded s))).get q))
          = (core (assembleIfNeeded s)).F ((freeIdx (core (assembleIfNeeded s))).get p)
            - ((fixedIdx (core (assembleIfNeeded s))).map
                (fun b => (core (assembleIfNeeded s)).K
                    ((freeIdx (core (assembleIfNeeded s))).get p) b
                  * (core (assembleIfNeeded s)).uk b)).sum)
    ∧ (∀ b ∈ fixedIdx (core (assembleIfNeeded s)),
        out.u b = (core (assembleIfNeeded s)).uk b)
    ∧ (∀ a < (core (assembleIfNeeded s)).n,
        out.R a = (∑ b ∈ Finset.range (core (assembleIfNeeded s)).n,
            (core (assembleIfNeeded s)).K a b * out.u b)
          - (core (assembleIfNeeded s)).F a) := by
  rcases solve_cases s with ⟨hok, hcase⟩ | ⟨herr, _, _⟩
  · rw [h] at hok
    have hout := Except.ok.inj hok
    have hdet : (Kff (core (assembleIfNeeded s))).det ≠ 0 := by
      rcases hcase with h0 | hd
      · exact absurd (List.length_eq_zero.1 h0) hfree
      · exact hd
    have hu : out.u = uVec (core (assembleIfNeeded s)) := by rw [hout]
    have hR : out.R = RVec (core (assembleIfNeeded s)) := by rw [hout]
    refine ⟨?_, ?_, ?_⟩
    · intro p
      calc (∑ q, (core (assembleIfNeeded s)).K
              ((freeIdx (core (assembleIfNeeded s))).get p)
              ((freeIdx (core (assembleIfNeeded s))).get q)
              * out.u ((freeIdx (core (assembleIfNeeded s))).get q))
          = ∑ q, (core (assembleIfNeeded s)).K
              ((freeIdx (core (assembleIfNeeded s))).get p)
              ((freeIdx (core (assembleIfNeeded s))).get q)
              * uf (core (assembleIfNeeded s)) q :=
            Finset.sum_congr rfl fun q _ => by
              rw [hu, uVec_free]
        _ = _ := free_system_solved (core (assembleIfNeeded s)) hdet p
    · intro b hb
      obtain ⟨hbn, hbf⟩ := mem_fixedIdx.1 hb
      rw [hu, uVec_fixed hbn hbf]
    · intro a ha
      rw [hR, hu]
      simp [RVec, ha]
  · rw [h] at herr
    cases herr

/-- Witness for C1 on the spec's worked single-spring example. -/
theorem C1_partitioned_solve_witness :
    ex1.solve = .ok (getOut ex1.solve)
      ∧ freeIdx (core (assembleIfNeeded ex1)) ≠ []
      ∧ (0 ∈ fixedIdx (core (assembleIfNeeded ex1))
          ∧ (getOut ex1.solve).u 0 = (core (assembleIfNeeded ex1)).uk 0) := by
  have h1 : ex1.solve = .ok (getOut ex1.solve) := by with_unfolding_all rfl
  have h2 : freeIdx (core (assembleIfNeeded ex1)) ≠ [] := by with_unfolding_all decide
  have h3 : 0 ∈ fixedIdx (core (assembleIfNeeded ex1)) := by with_unfolding_all decide
  exact ⟨h1, h2, h3, (C1_partitioned_solve ex1 (getOut ex1.solve) h1 h2).2.1 0 h3⟩

/-- C2: `solve` fails with the structural-singularity error exactly when
there is at least one free DOF and the reduced free×free matrix is
singular; in particular the spec's three-node model (one element between
nodes 1 and 2, node 3 free and uncoupled) fails that way. -/
theorem C2_singularity :
    (∀ s : SpringFEASolver,
        s.solve = .error (.structuralSingularity singularMsg)
          ↔ ((freeIdx (core (assembleIfNeeded s))).length ≠ 0
              ∧ (Kff (core (assembleIfNeeded s))).det = 0))
      ∧ ex2.solve = .error (.structuralSingularity singularMsg) := by
  constructor
  · intro s
    constructor
    · intro h
      rcases solve_cases s with ⟨hok, _⟩ | ⟨_, h0, hd⟩
      · rw [h] at hok; cases hok
      · exact ⟨h0, hd⟩
    · rintro ⟨h0, hd⟩
      rcases solve_cases s with ⟨_, hcase⟩ | ⟨herr, _, _⟩
      · rcases hcase with hc | hc
        · exact absurd hc h0
        · exact absurd hd hc
      · exact herr
  · with_unfolding_all rfl

/-- Counterexample to C3 as stated: the state `cs` stores a matrix with a
nonzero entry (`K[0][0] = 2`) whose entries sum to zero, and `solve`
nevertheless re-assembles (the stored entry is replaced by 0, and the
solve then fails on the freshly assembled empty stiffness, which could not
happen had the stored, invertible-on-the-free-block matrix been used). -/
theorem C3_counterexample :
    cs.K_full 0 0 = 2 ∧ matSum cs = 0
      ∧ (assembleIfNeeded cs).K_full 0 0 = 0
      ∧ cs.solve = .error (.structuralSingularity singularMsg) := by
  refine ⟨by with_unfolding_all rfl, by with_unfolding_all rfl,
    by with_unfolding_all rfl, by with_unfolding_all rfl⟩

theorem listmap_sum_comm (t : Finset ℕ) (l : List SpringElement) (g : SpringElement → ℕ → ℚ) :
    (∑ a ∈ t, (l.map (fun e => g e a)).sum) = (l.map (fun e => ∑ a ∈ t, g e a)).sum := by
  induction l with
  | nil => simp
  | cons e l ih => simp [Finset.sum_add_distrib, ih]

theorem double_ind_sum (n x y : ℕ) (v : ℚ) (hx : x < n) (hy : y < n) :
    (∑ a ∈ Finset.range n, ∑ b ∈ Finset.range n, if a = x ∧ b = y then v else 0) = v := by
  rw [Finset.sum_eq_single_of_mem x (Finset.mem_range.2 hx)]
  · simp [Finset.sum_ite_eq', Finset.mem_range, hy]
  · intro a _ hax
    simp [hax]

/-- Each element's 2×2 block sums to zero over the in-range entries
(`k − k − k + k`, or a single cancelled diagonal entry for a degenerate
self-loop DOF). -/
theorem contrib_double_sum_zero (n : ℕ) (e : SpringElement)
    (hii : e.i.dof < n) (hjj : e.j.dof < n) :
    (∑ a ∈ Finset.range n, ∑ b ∈ Finset.range n, contrib e a b) = 0 := by
  unfold contrib
  simp only [Finset.sum_add_distrib]
  rw [double_ind_sum n _ _ e.k hii hii, double_ind_sum n _ _ (-e.k) hii hjj,
    double_ind_sum n _ _ (-e.k) hjj hii, double_ind_sum n _ _ e.k hjj hjj]
  ring

/-- The entry sum of every assembled stiffness matrix is zero: each
element block contributes `k − k − k + k`. -/
theorem matSum_assemble_zero (s : SpringFEASolver)
    (hdofs : ∀ e ∈ s.elements, e.i.dof < s.n ∧ e.j.dof < s.n) :
    matSum s.assemble = 0 := by
  unfold matSum
  calc (∑ a ∈ Finset.range s.assemble.n, ∑ b ∈ Finset.range s.assemble.n,
          s.assemble.K_full a b)
      = ∑ a ∈ Finset.range s.n, ∑ b ∈ Finset.range s.n,
          (s.elements.map (fun e => contrib e a b)).sum :=
        Finset.sum_congr rfl fun a _ => Finset.sum_congr rfl fun b _ =>
          assemble_K_apply s a b
    _ = ∑ a ∈ Finset.range s.n,
          (s.elements.map (fun e => ∑ b ∈ Finset.range s.n, contrib e a b)).sum :=
        Finset.sum_congr rfl fun a _ => listmap_sum_comm _ _ _
    _ = (s.elements.map (fun e => ∑ a ∈ Finset.range s.n,
          ∑ b ∈ Finset.range s.n, contrib e a b)).sum := listmap_sum_comm _ _ _
    _ = (s.elements.map (fun _ => (0 : ℚ))).sum :=
        congrArg List.sum (List.map_congr_left fun e he =>
          contrib_double_sum_zero s.n e (hdofs e he).1 (hdofs e he).2)
    _ = 0 := by simp

/-- C3 (amended): `solve` re-assembles iff the stored matrix's entries sum
to zero; since every assembled matrix has entry sum zero (each element
block cancels), the precheck fires — and re-assembly happens — even when
assembly has already run. -/
theorem C3_amended_reassembles (s : SpringFEASolver)
    (hdofs : ∀ e ∈ s.elements, e.i.dof < s.n ∧ e.j.dof < s.n) :
    matSum s.assemble = 0 ∧ assembleIfNeeded s.assemble = s.assemble.assemble := by
  have hz := matSum_assemble_zero s hdofs
  exact ⟨hz, by simp [assembleIfNeeded, hz]⟩

/-- Witness for the amended C3 on the single-spring example. -/
theorem C3_amended_reassembles_witness :
    (∀ e ∈ ex1.elements, e.i.dof < ex1.n ∧ e.j.dof < ex1.n)
      ∧ matSum ex1.assemble = 0
      ∧ assembleIfNeeded ex1.assemble = ex1.assemble.assemble := by
  have hd : ∀ e ∈ ex1.elements, e.i.dof < ex1.n ∧ e.j.dof < ex1.n := by
    with_unfolding_all decide
  exact ⟨hd, C3_amended_reassembles ex1 hd⟩

/-- C4: constructing a `SpringElement` succeeds exactly when the node ids
differ and the stiffness is positive; a successful construction carries
the two nodes, the stiffness and a zero axial force, and every failure is
an `InvalidElement` error.  (Construction is a pure function of its
arguments — it touches no solver, node or element state.) -/
theorem C4_element_validation (ni nj : Node) (k : ℚ) :
    ((SpringElement.build ni nj k).isOk = true ↔ (ni.id ≠ nj.id ∧ 0 < k))
      ∧ (∀ el, SpringElement.build ni nj k = .ok el → el = ⟨ni, nj, k, 0⟩)
      ∧ (∀ er, SpringElement.build ni nj k = .error er →
          ∃ msg, er = .invalidElement msg) := by
  unfold SpringElement.build
  by_cases h1 : ni.id = nj.id
  · simp [h1, Except.isOk, Except.toBool]
  · by_cases h2 : k ≤ 0
    · simp [h1, h2, Except.isOk, Except.toBool, not_lt.2 h2]
    · simp [h1, h2, Except.isOk, Except.toBool, not_le.1 h2]

/-- Witness for C4: the example element builds successfully with zero
axial force. -/
theorem C4_element_validation_witness :
    SpringElement.build exN1 exN2 10 = .ok exE12
      ∧ exE12 = ⟨exN1, exN2, 10, 0⟩ := by
  have h : SpringElement.build exN1 exN2 10 = .ok exE12 := by with_unfolding_all rfl
  exact ⟨h, (C4_element_validation exN1 exN2 10).2.1 exE12 h⟩

theorem filter_range_map_sum (n : ℕ) (p : ℕ → Bool) (f : ℕ → ℚ) :
    (((List.range n).filter p).map f).sum
      = ∑ a ∈ Finset.range n, if p a then f a else 0 := by
  induction n with
  | zero => simp
  | succ n ih =>
      rw [List.range_succ, List.filter_append, List.map_append, List.sum_append,
        Finset.sum_range_succ, ih]
      by_cases hp : p n <;> simp [hp]

/-- A sum over all DOFs splits into its free-index part and its
fixed-index part. -/
theorem range_sum_split (c : Core) (f : ℕ → ℚ) :
    (∑ a ∈ Finset.range c.n, f a)
      = ((freeIdx c).map f).sum + ((fixedIdx c).map f).sum := by
  rw [freeIdx, fixedIdx, filter_range_map_sum, filter_range_map_sum,
    ← Finset.sum_add_distrib]
  refine Finset.sum_congr rfl fun a _ => ?_
  by_cases h : c.fixed a <;> simp [h]

theorem listmap_sum_eq_fin_sum (l : List ℕ) (f : ℕ → ℚ) :
    (l.map f).sum = ∑ q : Fin l.length, f (l.get q) := by
  induction l with
  | nil => simp
  | cons a l ih =>
      rw [List.map_cons, List.sum_cons, ih]
      exact (Fin.sum_univ_succ (fun q : Fin (l.length + 1) => f ((a :: l).get q))).symm

/-- On a successful nonsingular solve, the residual `(K·u − F)` vanishes
exactly at every free DOF. -/
theorem RVec_free_zero (c : Core) (hdet : (Kff c).det ≠ 0) (p : Fin (freeIdx c).length) :
    RVec c ((freeIdx c).get p) = 0 := by
  obtain ⟨hlt, hfix⟩ := mem_freeIdx.1 ((freeIdx c).get_mem p.val p.isLt)
  simp only [List.get_eq_getElem] at hlt hfix
  have key := free_system_solved c hdet p
  calc RVec c ((freeIdx c).get p)
      = (∑ b ∈ Finset.range c.n, c.K ((freeIdx c).get p) b * uVec c b)
          - c.F ((freeIdx c).get p) := by simp [RVec, hlt]
    _ = (((freeIdx c).map (fun b => c.K ((freeIdx c).get p) b * uVec c b)).sum
          + ((fixedIdx c).map (fun b => c.K ((freeIdx c).get p) b * uVec c b)).sum)
          - c.F ((freeIdx c).get p) := by rw [range_sum_split]
    _ = ((∑ q, c.K ((freeIdx c).get p) ((freeIdx c).get q) * uf c q)
          + ((fixedIdx c).map (fun b => c.K ((freeIdx c).get p) b * c.uk b)).sum)
          - c.F ((freeIdx c).get p) := by
        congr 1
        congr 1
        · rw [listmap_sum_eq_fin_sum]
          exact Finset.sum_congr rfl fun q _ => by rw [uVec_free]
        · exact congrArg List.sum (List.map_congr_left fun b hb => by
            obtain ⟨hbn, hbf⟩ := mem_fixedIdx.1 hb
            rw [uVec_fixed hbn hbf])
    _ = 0 := by rw [key]; ring

theorem ind_sum_col (n x y b : ℕ) (v : ℚ) (hx : x < n) :
    (∑ a ∈ Finset.range n, if a = x ∧ b = y then v else 0)
      = if b = y then v else 0 := by
  by_cases hb : b = y
  · simp [hb, Finset.sum_ite_eq', Finset.mem_range, hx]
  · simp [hb]

/-- Each element adds zero to every column sum of the global matrix. -/
theorem contrib_colsum_zero (n : ℕ) (e : SpringElement) (b : ℕ)
    (hii : e.i.dof < n) (hjj : e.j.dof < n) :
    (∑ a ∈ Finset.range n, contrib e a b) = 0 := by
  unfold contrib
  simp only [Finset.sum_add_distrib]
  rw [ind_sum_col n e.i.dof e.i.dof b e.k hii,
    ind_sum_col n e.i.dof e.j.dof b (-e.k) hii,
    ind_sum_col n e.j.dof e.i.dof b (-e.k) hjj,
    ind_sum_col n e.j.dof e.j.dof b e.k hjj]
  by_cases hij : e.i.dof = e.j.dof <;> by_cases h1 : b = e.i.dof <;>
    by_cases h2 : b = e.j.dof <;> simp [h1, h2, hij, eq_comm]

/-- Every column of the assembled global matrix sums to zero when all
element DOFs are in range. -/
theorem assemble_K_colsum (s : SpringFEASolver)
    (hdofs : ∀ e ∈ s.elements, e.i.dof < s.n ∧ e.j.dof < s.n) (b : ℕ) :
    (∑ a ∈ Finset.range s.n, s.assemble.K_full a b) = 0 := by
  calc (∑ a ∈ Finset.range s.n, s.assemble.K_full a b)
      = ∑ a ∈ Finset.range s.n, (s.elements.map (fun e => contrib e a b)).sum :=
        Finset.sum_congr rfl fun a _ => assemble_K_apply s a b
    _ = (s.elements.map (fun e => ∑ a ∈ Finset.range s.n, contrib e a b)).sum :=
        listmap_sum_comm _ _ _
    _ = (s.elements.map (fun _ => (0 : ℚ))).sum :=
        congrArg List.sum (List.map_congr_left fun e he =>
          contrib_colsum_zero s.n e b (hdofs e he).1 (hdofs e he).2)
    _ = 0 := by simp

/-- When every column of `K` sums to zero, the total reaction equals the
negated total applied load. -/
theorem sum_RVec (c : Core) (hcol : ∀ b, (∑ a ∈ Finset.range c.n, c.K a b) = 0) :
    (∑ a ∈ Finset.range c.n, RVec c a) = - ∑ a ∈ Finset.range c.n, c.F a := by
  have hR : ∀ a ∈ Finset.range c.n, RVec c a
      = (∑ b ∈ Finset.range c.n, c.K a b * uVec c b) - c.F a := fun a ha => by
    simp [RVec, Finset.mem_range.1 ha]
  rw [Finset.sum_congr rfl hR, Finset.sum_sub_distrib]
  have hKu : (∑ a ∈ Finset.range c.n, ∑ b ∈ Finset.range c.n, c.K a b * uVec c b) = 0 := by
    rw [Finset.sum_comm]
    refine Finset.sum_eq_zero fun b _ => ?_
    rw [← Finset.sum_mul, hcol b, zero_mul]
  rw [hKu]
  ring

/-- C7: for every solved configuration, the sum of all applied loads plus
the sum of the reactions at the constrained DOFs is zero (global
equilibrium). -/
theorem C7_global_equilibrium (s : SpringFEASolver) (out : SolveOut)
    (hz : matSum s = 0)
    (hdofs : ∀ e ∈ s.elements, e.i.dof < s.n ∧ e.j.dof < s.n)
    (h : s.solve = .ok out) :
    (∑ a ∈ Finset.range (core (assembleIfNeeded s)).n, (core (assembleIfNeeded s)).F a)
      + ((fixedIdx (core (assembleIfNeeded s))).map out.R).sum = 0 := by
  have hA : assembleIfNeeded s = s.assemble := by simp [assembleIfNeeded, hz]
  rcases solve_cases s with ⟨hok, hcase⟩ | ⟨herr, _, _⟩
  · rw [h] at hok
    have hout := Except.ok.inj hok
    have hR : out.R = RVec (core (assembleIfNeeded s)) := by rw [hout]
    have hcol : ∀ b, (∑ a ∈ Finset.range (core (assembleIfNeeded s)).n,
        (core (assembleIfNeeded s)).K a b) = 0 := by
      intro b
      rw [hA]
      exact assemble_K_colsum s hdofs b
    have hfree0 : ((freeIdx (core (assembleIfNeeded s))).map
        (RVec (core (assembleIfNeeded s)))).sum = 0 := by
      rcases hcase with h0 | hd
      · simp [List.length_eq_zero.1 h0]
      · rw [listmap_sum_eq_fin_sum]
        exact Finset.sum_eq_zero fun q _ => RVec_free_zero _ hd q
    have hsum := sum_RVec (core (assembleIfNeeded s)) hcol
    have hsplit := range_sum_split (core (assembleIfNeeded s))
      (RVec (core (assembleIfNeeded s)))
    rw [hR]
    linarith [hsum, hsplit, hfree0]
  · rw [h] at herr
    cases herr

/-- Witness for C7 on the single-spring example. -/
theorem C7_global_equilibrium_witness :
    matSum ex1 = 0
      ∧ (∀ e ∈ ex1.elements, e.i.dof < ex1.n ∧ e.j.dof < ex1.n)
      ∧ ex1.solve = .ok (getOut ex1.solve)
      ∧ (∑ a ∈ Finset.range (core (assembleIfNeeded ex1)).n,
            (core (assembleIfNeeded ex1)).F a)
          + ((fixedIdx (core (assembleIfNeeded ex1))).map (getOut ex1.solve).R).sum = 0 := by
  have hz : matSum ex1 = 0 := by with_unfolding_all rfl
  have hd : ∀ e ∈ ex1.elements, e.i.dof < ex1.n ∧ e.j.dof < ex1.n := by
    with_unfolding_all decide
  have h : ex1.solve = .ok (getOut ex1.solve) := by with_unfolding_all rfl
  exact ⟨hz, hd, h, C7_global_equilibrium ex1 (getOut ex1.solve) hz hd h⟩

theorem writeNodes_length (u : ℕ → ℚ) (t : ℕ) (l : List Node) :
    (writeNodes u t l).length = l.length := by
  induction l generalizing t with
  | nil => rfl
  | cons nd rest ih => simp [writeNodes, ih]

/-- The node write-back changes only the solved-displacement field. -/
theorem writeNodes_map_inputs (u : ℕ → ℚ) (t : ℕ) (l : List Node) :
    (writeNodes u t l).map nodeInputs = l.map nodeInputs := by
  induction l generalizing t with
  | nil => rfl
  | cons nd rest ih => simp [writeNodes, nodeInputs, ih]

/-- The displacements written back depend only on `u` and the list length. -/
theorem writeNodes_map_u (u : ℕ → ℚ) : ∀ (t : ℕ) (l₁ l₂ : List Node),
    l₁.length = l₂.length →
    (writeNodes u t l₁).map Node.u = (writeNodes u t l₂).map Node.u := by
  intro t l₁
  induction l₁ generalizing t with
  | nil =>
      intro l₂ h
      cases l₂ with
      | nil => rfl
      | cons nd₂ rest₂ => simp at h
  | cons nd rest ih =>
      intro l₂ h
      cases l₂ with
      | nil => simp at h
      | cons nd₂ rest₂ =>
          simp only [writeNodes, List.map_cons, List.length_cons] at h ⊢
          congr 1
          exact ih (t + 1) rest₂ (by omega)

theorem assembleIfNeeded_nodes (s : SpringFEASolver) :
    (assembleIfNeeded s).nodes = s.nodes := by
  by_cases h : matSum s = 0 <;> simp [assembleIfNeeded, h, SpringFEASolver.assemble]

theorem assembleIfNeeded_elements (s : SpringFEASolver) :
    (assembleIfNeeded s).elements = s.elements := by
  by_cases h : matSum s = 0 <;> simp [assembleIfNeeded, h, SpringFEASolver.assemble]

/-- C10: `assemble` and a failing `solve` leave the node and element
collections untouched, and a successful `solve` changes only each node's
solved displacement and each element's axial force — every input field
(id, load, constraint flags, prescribed value; node references and
stiffness) is preserved. -/
theorem C10_frame (s : SpringFEASolver) :
    (s.assemble).nodes = s.nodes
      ∧ (s.assemble).elements = s.elements
      ∧ (assembleIfNeeded s).nodes = s.nodes
      ∧ (assembleIfNeeded s).elements = s.elements
      ∧ (∀ out, s.solve = .ok out →
          out.state.nodes.map nodeInputs = s.nodes.map nodeInputs
            ∧ out.state.elements.map elemInputs = s.elements.map elemInputs) := by
  refine ⟨rfl, rfl, assembleIfNeeded_nodes s, assembleIfNeeded_elements s, ?_⟩
  intro out h
  rcases solve_cases s with ⟨hok, _⟩ | ⟨herr, _, _⟩
  · rw [h] at hok
    have hout := Except.ok.inj hok
    have hst : out.state = writeBack (assembleIfNeeded s) := by rw [hout]
    constructor
    · rw [hst]
      show (writeNodes _ 0 (assembleIfNeeded s).nodes).map nodeInputs = _
      rw [writeNodes_map_inputs, assembleIfNeeded_nodes]
    · rw [hst]
      show ((assembleIfNeeded s).elements.map _).map elemInputs = _
      rw [List.map_map, assembleIfNeeded_elements]
      rfl
  · rw [h] at herr
    cases herr

/-- Witness for C10 on the single-spring example. -/
theorem C10_frame_witness :
    ex1.solve = .ok (getOut ex1.solve)
      ∧ (getOut ex1.solve).state.nodes.map nodeInputs = ex1.nodes.map nodeInputs
      ∧ (getOut ex1.solve).state.elements.map elemInputs = ex1.elements.map elemInputs := by
  have h : ex1.solve = .ok (getOut ex1.solve) := by with_unfolding_all rfl
  exact ⟨h, (C10_frame ex1).2.2.2.2 (getOut ex1.solve) h⟩

theorem map_inputs_getElem {α β : Type} (f : α → β) {l₁ l₂ : List α}
    (h : l₁.map f = l₂.map f) (a : ℕ) (h₁ : a < l₁.length) (h₂ : a < l₂.length) :
    f l₁[a] = f l₂[a] := by
  have hq := congrArg (fun L => L[a]?) h
  simp only [List.getElem?_map] at hq
  rw [List.getElem?_eq_getElem h₁, List.getElem?_eq_getElem h₂] at hq
  simpa using hq

/-- `assemble` produces the same numeric state on any two solvers that
agree on `n`, on every node's input fields, and on every element's input
fields. -/
theorem assemble_core_congr {s₁ s₂ : SpringFEASolver} (hn : s₁.n = s₂.n)
    (hnodes : s₁.nodes.map nodeInputs = s₂.nodes.map nodeInputs)
    (helems : s₁.elements.map elemInputs = s₂.elements.map elemInputs) :
    core s₁.assemble = core s₂.assemble := by
  have hnlen : s₁.nodes.length = s₂.nodes.length := by
    simpa using congrArg List.length hnodes
  have hK : s₁.assemble.K_full = s₂.assemble.K_full := by
    funext x y
    rw [assemble_K_apply, assemble_K_apply]
    have h1 : ∀ (l : List SpringElement), l.map (fun e => contrib e x y)
        = (l.map elemInputs).map (fun t => contribT t x y) := fun l => by
      rw [List.map_map]
      exact List.map_congr_left fun e _ => rfl
    rw [h1, h1, helems]
  have hF : s₁.assemble.F_full = s₂.assemble.F_full := by
    funext a
    show (if h : a < s₁.nodes.length then (s₁.nodes.get ⟨a, h⟩).force else 0)
      = (if h : a < s₂.nodes.length then (s₂.nodes.get ⟨a, h⟩).force else 0)
    by_cases ha : a < s₁.nodes.length
    · have ha₂ : a < s₂.nodes.length := hnlen ▸ ha
      have ht := map_inputs_getElem nodeInputs hnodes a ha ha₂
      have hfo : (s₁.nodes.get ⟨a, ha⟩).force = (s₂.nodes.get ⟨a, ha₂⟩).force :=
        congrArg (fun t => t.2.1) ht
      rw [dif_pos ha, dif_pos ha₂, hfo]
    · have ha₂ : ¬ a < s₂.nodes.length := by omega
      rw [dif_neg ha, dif_neg ha₂]
  have hfix : s₁.assemble.fixed = s₂.assemble.fixed := by
    funext a
    show (if h : a < s₁.nodes.length then (s₁.nodes.get ⟨a, h⟩).fixed else false)
      = (if h : a < s₂.nodes.length then (s₂.nodes.get ⟨a, h⟩).fixed else false)
    by_cases ha : a < s₁.nodes.length
    · have ha₂ : a < s₂.nodes.length := hnlen ▸ ha
      have ht := map_inputs_getElem nodeInputs hnodes a ha ha₂
      have hfi : (s₁.nodes.get ⟨a, ha⟩).fixed = (s₂.nodes.get ⟨a, ha₂⟩).fixed :=
        congrArg (fun t => t.2.2.1) ht
      rw [dif_pos ha, dif_pos ha₂, hfi]
    · have ha₂ : ¬ a < s₂.nodes.length := by omega
      rw [dif_neg ha, dif_neg ha₂]
  have huk : s₁.assemble.u_known = s₂.assemble.u_known := by
    funext a
    show (if h : a < s₁.nodes.length then
        (if (s₁.nodes.get ⟨a, h⟩).prescribed then (s₁.nodes.get ⟨a, h⟩).u_prescribed else 0)
      else 0)
      = (if h : a < s₂.nodes.length then
        (if (s₂.nodes.get ⟨a, h⟩).prescribed then (s₂.nodes.get ⟨a, h⟩).u_prescribed else 0)
      else 0)
    by_cases ha : a < s₁.nodes.length
    · have ha₂ : a < s₂.nodes.length := hnlen ▸ ha
      have ht := map_inputs_getElem nodeInputs hnodes a ha ha₂
      have hp : (s₁.nodes.get ⟨a, ha⟩).prescribed = (s₂.nodes.get ⟨a, ha₂⟩).prescribed :=
        congrArg (fun t => t.2.2.2.1) ht
      have hup : (s₁.nodes.get ⟨a, ha⟩).u_prescribed = (s₂.nodes.get ⟨a, ha₂⟩).u_prescribed :=
        congrArg (fun t => t.2.2.2.2) ht
      rw [dif_pos ha, dif_pos ha₂, hp, hup]
    · have ha₂ : ¬ a < s₂.nodes.length := by omega
      rw [dif_neg ha, dif_neg ha₂]
  have hn' : s₁.assemble.n = s₂.assemble.n := hn
  simp only [core]
  rw [hn', hK, hF, hfix, huk]

theorem writeBack_elements (x : SpringFEASolver) :
    (writeBack x).elements
      = x.elements.map (fun e => { e with axial := e.axial_force (uVec (core x)) }) := rfl

theorem writeBack_nodes (x : SpringFEASolver) :
    (writeBack x).nodes = writeNodes (uVec (core x)) 0 x.nodes := rfl

/-- The axial forces written back are the `axial_force` values of the
pre-write elements. -/
theorem writeBack_elements_axial (x : SpringFEASolver) :
    (writeBack x).elements.map SpringElement.axial
      = x.elements.map (fun e => e.axial_force (uVec (core x))) := by
  rw [writeBack_elements, List.map_map]
  rfl

/-- The numeric state a second `solve` works from is the one the first
`solve` worked from: write-back touches nothing `assemble` reads. -/
theorem core_resolve (s : SpringFEASolver) (out1 : SolveOut)
    (hdofs : ∀ e ∈ s.elements, e.i.dof < s.n ∧ e.j.dof < s.n)
    (h1 : s.solve = .ok out1) :
    core (assembleIfNeeded out1.state) = core (assembleIfNeeded s) := by
  rcases solve_cases s with ⟨hok, _⟩ | ⟨herr, _, _⟩
  swap
  · rw [h1] at herr; cases herr
  rw [h1] at hok
  have hst : out1.state = writeBack (assembleIfNeeded s) := by
    rw [Except.ok.inj hok]
  by_cases hz : matSum s = 0
  · have hA : assembleIfNeeded s = s.assemble := by simp [assembleIfNeeded, hz]
    have hmt : matSum s.assemble = 0 := matSum_assemble_zero s hdofs
    have hm2 : matSum out1.state = 0 := by
      rw [hst, hA]; exact hmt
    have hA2 : assembleIfNeeded out1.state = out1.state.assemble := by
      simp [assembleIfNeeded, hm2]
    rw [hA2, hst, hA]
    calc core ((writeBack s.assemble).assemble)
        = core (s.assemble.assemble) := by
          refine assemble_core_congr rfl ?_ ?_
          · rw [writeBack_nodes, writeNodes_map_inputs]
          · rw [writeBack_elements, List.map_map]
            exact List.map_congr_left fun e _ => rfl
      _ = core s.assemble := assemble_core_congr rfl rfl rfl
  · have hA : assembleIfNeeded s = s := by simp [assembleIfNeeded, hz]
    have hm2 : ¬ matSum out1.state = 0 := by
      rw [hst, hA]; exact hz
    have hA2 : assembleIfNeeded out1.state = out1.state := by
      simp [assembleIfNeeded, hm2]
    rw [hA2, hst, hA]
    rfl

/-- C8: a second `solve` on the unchanged model reproduces the first
solve's displacement vector, reaction vector and per-element axial
forces (and the displacements written onto the nodes). -/
theorem C8_solve_idempotent (s : SpringFEASolver) (out1 : SolveOut)
    (hdofs : ∀ e ∈ s.elements, e.i.dof < s.n ∧ e.j.dof < s.n)
    (h1 : s.solve = .ok out1) :
    ∃ out2, out1.state.solve = .ok out2
      ∧ out2.u = out1.u ∧ out2.R = out1.R
      ∧ out2.state.elements.map SpringElement.axial
          = out1.state.elements.map SpringElement.axial
      ∧ out2.state.nodes.map Node.u = out1.state.nodes.map Node.u := by
  have hc := core_resolve s out1 hdofs h1
  rcases solve_cases s with ⟨hok1, hcase1⟩ | ⟨herr, _, _⟩
  swap
  · rw [h1] at herr; cases herr
  rw [h1] at hok1
  have hout1 := Except.ok.inj hok1
  have hst : out1.state = writeBack (assembleIfNeeded s) := by rw [hout1]
  rcases solve_cases out1.state with ⟨hok2, _⟩ | ⟨herr2, hlen2, hdet2⟩
  swap
  · exfalso
    rw [hc] at hlen2 hdet2
    rcases hcase1 with h0 | hd
    · exact hlen2 h0
    · exact hd hdet2
  refine ⟨_, hok2, ?_, ?_, ?_, ?_⟩
  · show uVec (core (assembleIfNeeded out1.state)) = out1.u
    rw [hc, hout1]
  · show RVec (core (assembleIfNeeded out1.state)) = out1.R
    rw [hc, hout1]
  · show (writeBack (assembleIfNeeded out1.state)).elements.map SpringElement.axial
      = out1.state.elements.map SpringElement.axial
    calc (writeBack (assembleIfNeeded out1.state)).elements.map SpringElement.axial
        = (assembleIfNeeded out1.state).elements.map
            (fun e => e.axial_force (uVec (core (assembleIfNeeded out1.state)))) :=
          writeBack_elements_axial _
      _ = out1.state.elements.map
            (fun e => e.axial_force (uVec (core (assembleIfNeeded s)))) := by
          rw [assembleIfNeeded_elements, hc]
      _ = out1.state.elements.map SpringElement.axial := by
          rw [hst, writeBack_elements, List.map_map, List.map_map]
          exact List.map_congr_left fun e _ => rfl
  · show (writeBack (assembleIfNeeded out1.state)).nodes.map Node.u
      = out1.state.nodes.map Node.u
    calc (writeBack (assembleIfNeeded out1.state)).nodes.map Node.u
        = (writeNodes (uVec (core (assembleIfNeeded out1.state))) 0
            (assembleIfNeeded out1.state).nodes).map Node.u := rfl
      _ = (writeNodes (uVec (core (assembleIfNeeded s))) 0
            out1.state.nodes).map Node.u := by
          rw [hc, assembleIfNeeded_nodes]
      _ = (writeNodes (uVec (core (assembleIfNeeded s))) 0
            (writeNodes (uVec (core (assembleIfNeeded s))) 0
              (assembleIfNeeded s).nodes)).map Node.u := by
          rw [hst]
          rfl
      _ = (writeNodes (uVec (core (assembleIfNeeded s))) 0
            (assembleIfNeeded s).nodes).map Node.u :=
          writeNodes_map_u _ 0 _ _ (writeNodes_length _ _ _)
      _ = out1.state.nodes.map Node.u := by
          rw [hst]
          rfl

/-- Witness for C8 on the single-spring example. -/
theorem C8_solve_idempotent_witness :
    (∀ e ∈ ex1.elements, e.i.dof < ex1.n ∧ e.j.dof < ex1.n)
      ∧ ex1.solve = .ok (getOut ex1.solve)
      ∧ ∃ out2, (getOut ex1.solve).state.solve = .ok out2
          ∧ out2.u = (getOut ex1.solve).u
          ∧ out2.R = (getOut ex1.solve).R
          ∧ out2.state.elements.map SpringElement.axial
              = (getOut ex1.solve).state.elements.map SpringElement.axial
          ∧ out2.state.nodes.map Node.u = (getOut ex1.solve).state.nodes.map Node.u := by
  have hd : ∀ e ∈ ex1.elements, e.i.dof < ex1.n ∧ e.j.dof < ex1.n := by
    with_unfolding_all decide
  have h : ex1.solve = .ok (getOut ex1.solve) := by with_unfolding_all rfl
  exact ⟨hd, h, C8_solve_idempotent ex1 (getOut ex1.solve) hd h⟩

/-- The computed displacements depend on the load vector only through its
values at free DOFs. -/
theorem uVec_F_congr (n : ℕ) (K : ℕ → ℕ → ℚ) (F₁ F₂ : ℕ → ℚ) (fix : ℕ → Bool)
    (uk : ℕ → ℚ) (hF : ∀ a, fix a = false → F₁ a = F₂ a) :
    uVec ⟨n, K, F₁, fix, uk⟩ = uVec ⟨n, K, F₂, fix, uk⟩ := by
  have hFf : Ff ⟨n, K, F₁, fix, uk⟩ = Ff ⟨n, K, F₂, fix, uk⟩ := by
    funext p
    exact hF _ (mem_freeIdx.1
      ((freeIdx (⟨n, K, F₁, fix, uk⟩ : Core)).get_mem p.val p.isLt)).2
  have hrhs : rhs ⟨n, K, F₁, fix, uk⟩ = rhs ⟨n, K, F₂, fix, uk⟩ := by
    unfold rhs
    by_cases h : 0 < (fixedIdx (⟨n, K, F₁, fix, uk⟩ : Core)).length
    · rw [if_pos h,
        if_pos (show 0 < (fixedIdx (⟨n, K, F₂, fix, uk⟩ : Core)).length from h)]
      funext p
      rw [show Ff (⟨n, K, F₁, fix, uk⟩ : Core) p
          = Ff (⟨n, K, F₂, fix, uk⟩ : Core) p from congrFun hFf p]
      rfl
    · rw [if_neg h,
        if_neg (show ¬ 0 < (fixedIdx (⟨n, K, F₂, fix, uk⟩ : Core)).length from h)]
      exact hFf
  have hufFun : ufFun ⟨n, K, F₁, fix, uk⟩ = ufFun ⟨n, K, F₂, fix, uk⟩ := by
    unfold ufFun uf
    rw [hrhs]
    rfl
  unfold uVec
  rw [hufFun]
  rfl

/-- C9: changing the external load at a constrained node changes no
element's internal axial force — the two solves (original and modified
load) agree error-for-error and axial-force-for-axial-force. -/
theorem C9_constrained_load (nodes : List Node) (elems : List SpringElement)
    (c : ℕ) (g : ℚ) (hc : c < nodes.length) (hfx : (nodes.get ⟨c, hc⟩).fixed = true) :
    Except.map (fun o => o.state.elements.map SpringElement.axial)
        ((mkSolver nodes elems).solve)
      = Except.map (fun o => o.state.elements.map SpringElement.axial)
        ((mkSolver (nodes.set c { nodes.get ⟨c, hc⟩ with force := g }) elems).solve) := by
  set nd : Node := { nodes.get ⟨c, hc⟩ with force := g } with hnd
  have hz₁ : matSum (mkSolver nodes elems) = 0 := by simp [matSum, mkSolver]
  have hz₂ : matSum (mkSolver (nodes.set c nd) elems) = 0 := by
    simp [matSum, mkSolver]
  have hA₁ : assembleIfNeeded (mkSolver nodes elems) = (mkSolver nodes elems).assemble := by
    simp [assembleIfNeeded, hz₁]
  have hA₂ : assembleIfNeeded (mkSolver (nodes.set c nd) elems)
      = (mkSolver (nodes.set c nd) elems).assemble := by
    simp [assembleIfNeeded, hz₂]
  set c₁ : Core := core (mkSolver nodes elems).assemble with hcdef₁
  set c₂ : Core := core (mkSolver (nodes.set c nd) elems).assemble with hcdef₂
  have hcc₁ : core (assembleIfNeeded (mkSolver nodes elems)) = c₁ := by rw [hA₁]
  have hcc₂ : core (assembleIfNeeded (mkSolver (nodes.set c nd) elems)) = c₂ := by
    rw [hA₂]
  have hlenset : (nodes.set c nd).length = nodes.length := by simp
  have hn : c₂.n = c₁.n := hlenset
  have hK : c₂.K = c₁.K := by
    funext x y
    show (mkSolver (nodes.set c nd) elems).assemble.K_full x y
      = (mkSolver nodes elems).assemble.K_full x y
    rw [assemble_K_apply, assemble_K_apply]
    rfl
  have hfix : c₂.fixed = c₁.fixed := by
    funext a
    show (if h : a < (nodes.set c nd).length then ((nodes.set c nd).get ⟨a, h⟩).fixed
        else false)
      = (if h : a < nodes.length then (nodes.get ⟨a, h⟩).fixed else false)
    by_cases ha : a < nodes.length
    · have ha' : a < (nodes.set c nd).length := by rw [hlenset]; exact ha
      rw [dif_pos ha', dif_pos ha]
      simp only [List.get_eq_getElem]
      by_cases hac : a = c
      · subst hac
        rw [List.getElem_set_self ha']
        rfl
      · rw [List.getElem_set_ne (fun h => hac h.symm) ha']
    · have ha' : ¬ a < (nodes.set c nd).length := by rw [hlenset]; exact ha
      rw [dif_neg ha', dif_neg ha]
  have huk : c₂.uk = c₁.uk := by
    funext a
    show (if h : a < (nodes.set c nd).length then
        (if ((nodes.set c nd).get ⟨a, h⟩).prescribed
          then ((nodes.set c nd).get ⟨a, h⟩).u_prescribed else 0)
      else 0)
      = (if h : a < nodes.length then
        (if (nodes.get ⟨a, h⟩).prescribed then (nodes.get ⟨a, h⟩).u_prescribed else 0)
      else 0)
    by_cases ha : a < nodes.length
    · have ha' : a < (nodes.set c nd).length := by rw [hlenset]; exact ha
      rw [dif_pos ha', dif_pos ha]
      simp only [List.get_eq_getElem]
      by_cases hac : a = c
      · subst hac
        rw [List.getElem_set_self ha']
        rfl
      · rw [List.getElem_set_ne (fun h => hac h.symm) ha']
    · have ha' : ¬ a < (nodes.set c nd).length := by rw [hlenset]; exact ha
      rw [dif_neg ha', dif_neg ha]
  have hF : ∀ a, c₁.fixed a = false → c₁.F a = c₂.F a := by
    intro a hfa
    show (if h : a < nodes.length then (nodes.get ⟨a, h⟩).force else 0)
      = (if h : a < (nodes.set c nd).length then ((nodes.set c nd).get ⟨a, h⟩).force
        else 0)
    by_cases ha : a < nodes.length
    · have ha' : a < (nodes.set c nd).length := by rw [hlenset]; exact ha
      have hane : a ≠ c := by
        intro hac
        subst hac
        have hfa' : c₁.fixed a = true := by
          show (if h : a < nodes.length then (nodes.get ⟨a, h⟩).fixed else false) = true
          rw [dif_pos ha]
          exact hfx
        rw [hfa'] at hfa
        cases hfa
      rw [dif_pos ha, dif_pos ha']
      simp only [List.get_eq_getElem]
      rw [List.getElem_set_ne (fun h => hane h.symm) ha']
    · have ha' : ¬ a < (nodes.set c nd).length := by rw [hlenset]; exact ha
      rw [dif_neg ha, dif_neg ha']
  have hc2 : c₂ = ⟨c₁.n, c₁.K, c₂.F, c₁.fixed, c₁.uk⟩ := by
    rw [← hn, ← hK, ← hfix, ← huk]
  have hc1 : c₁ = ⟨c₁.n, c₁.K, c₁.F, c₁.fixed, c₁.uk⟩ := rfl
  have hu : uVec c₂ = uVec c₁ := by
    rw [hc2, hc1]
    exact (uVec_F_congr c₁.n c₁.K c₁.F c₂.F c₁.fixed c₁.uk hF).symm
  have hlenfree : (freeIdx c₂).length = (freeIdx c₁).length := by rw [hc2, hc1]; rfl
  have hdetM : (Kff c₂).det = (Kff c₁).det := by rw [hc2, hc1]; rfl
  have hfm : (writeBack (assembleIfNeeded (mkSolver nodes elems))).elements.map
        SpringElement.axial
      = (writeBack (assembleIfNeeded (mkSolver (nodes.set c nd) elems))).elements.map
        SpringElement.axial := by
    rw [writeBack_elements_axial, writeBack_elements_axial,
      assembleIfNeeded_elements, assembleIfNeeded_elements, hcc₁, hcc₂, hu]
    rfl
  rcases solve_cases (mkSolver nodes elems) with ⟨hok1, hcase1⟩ | ⟨herr1, hlen1, hdet1⟩ <;>
    rcases solve_cases (mkSolver (nodes.set c nd) elems) with
      ⟨hok2, hcase2⟩ | ⟨herr2, hlen2, hdet2⟩
  · rw [hok1, hok2]
    exact congrArg Except.ok hfm
  · exfalso
    rw [hcc₂, hlenfree] at hlen2
    rw [hcc₂, hdetM] at hdet2
    rw [hcc₁] at hcase1
    rcases hcase1 with h0 | hd
    · exact hlen2 h0
    · exact hd hdet2
  · exfalso
    rw [hcc₁] at hlen1 hdet1
    rw [hcc₂] at hcase2
    rcases hcase2 with h0 | hd
    · rw [hlenfree] at h0
      exact hlen1 h0
    · rw [hdetM] at hd
      exact hd hdet1
  · rw [herr1, herr2]

/-- Witness for C9: adding a load of 7 at the fixed node 1 of the
single-spring model leaves the element force result unchanged. -/
theorem C9_constrained_load_witness :
    exN1.fixed = true
      ∧ Except.map (fun o => o.state.elements.map SpringElement.axial)
          ((mkSolver [exN1, exN2] [exE12]).solve)
        = Except.map (fun o => o.state.elements.map SpringElement.axial)
          ((mkSolver ([exN1, exN2].set 0 { exN1 with force := 7 }) [exE12]).solve) := by
  refine ⟨rfl, ?_⟩
  exact C9_constrained_load [exN1, exN2] [exE12] 0 7 (by with_unfolding_all decide)
    (by with_unfolding_all decide)

end FEA
